import Mathlib

/-!
Verification of the FM-index implementation in `fmindex.py`.

The Python source is shallowly embedded: texts and patterns are `List Char`,
Python `int` is `Int`, Python list slices and negative indexing are modelled
by `pySlice` / `pyGet`, and each method of `FMIndex` becomes a Lean function
on an `FMIndex` structure built by `mkFMIndex` (the embedding of `__init__`).
-/

/-- Python list indexing `l[i]` with negative-index wraparound
(`l[-1]` is the last element).  Out-of-range access, which raises in
Python and never happens at the call sites embedded here, returns a
placeholder character. -/
def pyGet (l : List Char) (i : Int) : Char :=
  let j : Int := if i < 0 then i + l.length else i
  l.getD j.toNat '?'

/-- Python list slicing `l[a:b]` (step 1): negative bounds count from the
end, and bounds are clamped to `[0, len(l)]`. -/
def pySlice {α : Type} (l : List α) (a b : Int) : List α :=
  let n : Int := l.length
  let a' : Int := if a < 0 then max (a + n) 0 else min a n
  let b' : Int := if b < 0 then max (b + n) 0 else min b n
  (l.take b'.toNat).drop a'.toNat

/-- Strict lexicographic order on `List Char`, matching Python string `<`
(a proper prefix is smaller). -/
def listLt : List Char → List Char → Bool
  | [], [] => false
  | [], _ :: _ => true
  | _ :: _, [] => false
  | a :: as, b :: bs => if a < b then true else if b < a then false else listLt as bs

/-- Non-strict companion of `listLt`, used as the sort relation. -/
def listLe (u v : List Char) : Bool := !(listLt v u)

/-- `n_less_than(letters)[c]`: the number of elements of `letters` strictly
less than `c`.  The Python function returns a dict whose keys are the
distinct elements of `letters`; callers guard lookups by key membership,
so the embedding is the total counting function. -/
def n_less_than (letters : List Char) (c : Char) : Nat :=
  (letters.filter (fun x => decide (x < c))).length

/-- The comparison `text[i:] <= text[j:]` used as the sort key order in
`create_suffix_array_naive`. -/
def sufLe (t : List Char) (i j : Nat) : Prop :=
  listLe (t.drop i) (t.drop j) = true

instance (t : List Char) : DecidableRel (sufLe t) := by
  intro i j
  unfold sufLe
  infer_instance

/-- `create_suffix_array_naive(text)`: `sorted(range(len(text)), key=lambda x: text[x:])`.
Suffixes of a text are pairwise distinct, so any correct sort produces the
same list; the embedding uses insertion sort. -/
def create_suffix_array_naive (t : List Char) : List Nat :=
  List.insertionSort (sufLe t) (List.range t.length)

/-- The index data computed by `FMIndex.__init__`: the text, the suffix
array, and the Burrows-Wheeler transform `bwt[i] = text[sa[i] - 1]`
(Python `-1` indexing wraps to the last character). -/
structure FMIndex where
  text : List Char
  suffix_array : List Nat
  bwt : List Char

/-- `FMIndex.__init__(text)`.  `occ_lex_lower` and `rank_cps` are not stored:
`occ_lex_lower[c]` is recovered as `n_less_than bwt c` (with key membership
`c ∈ bwt`) and the rank structure as `rank_at_row bwt`. -/
def mkFMIndex (t : List Char) : FMIndex :=
  let sa := create_suffix_array_naive t
  { text := t, suffix_array := sa, bwt := sa.map (fun i : Nat => pyGet t ((i : Int) - 1)) }

/-- Modelled from the spec: `t_rank.TRank.rank_at_row(c, i)` — the rank-
structure module `t_rank` is imported by the source but is not part of the
source tree.  Spec section 4.1 gives the contract "count of symbol `c` in
`BWT[0..i]` inclusive, 0 for `i < 0`", while sections 4.4 and 9 state that
the index-base convention of the `+1` offsets is an open question that must
be pinned down empirically against the scenario tests of section 8.  The
convention under which the section 8 scenarios (completeness, the overlap
scenario) hold, and under which the inverse-BWT walk `get_nth_read` indexes
`bwt` in bounds, is the zero-based rank: `rank_at_row(c, i)` is the number
of occurrences of `c` in `BWT[0..i]` minus one (so `-1` when there is none,
in particular for `i < 0`). -/
def rank_at_row (bwt : List Char) (c : Char) (i : Int) : Int :=
  ((bwt.take (i + 1).toNat).count c : Int) - 1

namespace FMIndex

/-- `FMIndex.backtrace_step(c, start, end)`. -/
def backtrace_step (fm : FMIndex) (c : Char) (start e : Int) : Int × Int :=
  if c ∈ fm.bwt then
    (rank_at_row fm.bwt c (start - 1) + n_less_than fm.bwt c + 1,
     rank_at_row fm.bwt c e + n_less_than fm.bwt c)
  else
    (e + 1, e)

/-- The `for c in rs:` loop of `get_range`: one `backtrace_step` per
character, breaking out as soon as `start > end`. -/
def goRange (fm : FMIndex) : List Char → Int → Int → Int × Int
  | [], s, e => (s, e)
  | c :: cs, s, e =>
    let p := fm.backtrace_step c s e
    if p.1 > p.2 then p else goRange fm cs p.1 p.2

/-- `FMIndex.get_range(p)`: backward search over `reversed(p)` starting
from `(0, len(text) - 1)`, returning `(start, end + 1)`. -/
def get_range (fm : FMIndex) (p : List Char) : Int × Int :=
  let r := goRange fm p.reverse 0 ((fm.text.length : Int) - 1)
  (r.1, r.2 + 1)

/-- `FMIndex.find(sub)`: the suffix-array slice `suffix_array[start:end]`
when `start < end`, else `[]`. -/
def find (fm : FMIndex) (sub : List Char) : List Nat :=
  let r := fm.get_range sub
  if r.1 < r.2 then pySlice fm.suffix_array r.1 r.2 else []

/-- `FMIndex.contains_substring(p)`. -/
def contains_substring (fm : FMIndex) (p : List Char) : Bool :=
  let r := fm.get_range p
  decide (r.1 < r.2)

/-- `FMIndex.elements_preceeded_by_sep(start, end)`: the entries of
`suffix_array[start:end+1]` whose preceding text character (Python
`text[i - 1]`, wrapping at `i = 0`) is the sentinel. -/
def elements_preceeded_by_sep (fm : FMIndex) (start e : Int) : List Nat :=
  (pySlice fm.suffix_array start (e + 1)).filter
    (fun i => pyGet fm.text ((i : Int) - 1) == '$')

/-- `FMIndex.get_read_at_offset(offset)`: characters scanned leftwards from
`offset` up to (excluding) the previous sentinel, followed by characters
scanned rightwards from `offset` up to (excluding) the next sentinel. -/
def get_read_at_offset (t : List Char) (offset : Nat) : List Char :=
  ((t.take offset).reverse.takeWhile (fun x => x != '$')).reverse
    ++ (t.drop offset).takeWhile (fun x => x != '$')

/-- The `for c in rs:` loop of `get_prefix_overlaps`: a `backtrace_step`
per character, emitting `(read, chars_into_p)` pairs for the
sentinel-preceded rows of the current range whenever
`min_overlap_len <= chars_into_p < len(p)`, and stopping when the range
empties. -/
def goOverlaps (fm : FMIndex) (plen m : Nat) :
    List Char → Int → Int → Nat → List (List Char × Nat)
  | [], _, _, _ => []
  | c :: cs, s, e, k =>
    let st := fm.backtrace_step c s e
    let k' := k + 1
    if st.1 > st.2 then []
    else
      (if m ≤ k' ∧ k' < plen then
        (fm.elements_preceeded_by_sep st.1 st.2).map
          (fun i => (get_read_at_offset fm.text i, k'))
      else [])
        ++ goOverlaps fm plen m cs st.1 st.2 k'

/-- `FMIndex.get_prefix_overlaps(p, min_overlap_len)`. -/
def get_prefix_overlaps (fm : FMIndex) (p : List Char) (m : Nat) :
    List (List Char × Nat) :=
  goOverlaps fm p.length m p.reverse 0 ((fm.text.length : Int) - 1) 0

/-- `FMIndex.find_prefixes(p)`: occurrences of `p` whose preceding text
character is the sentinel. -/
def find_prefixes (fm : FMIndex) (p : List Char) : List Nat :=
  (fm.find p).filter (fun i => pyGet fm.text ((i : Int) - 1) == '$')

end FMIndex

/-- The error the spec's `build_index` is required to raise on invalid
input.  No such error exists anywhere in the source. -/
inductive InvalidInputError : Type
  | mk : InvalidInputError

/-- The spec's `build_index(text) -> Index` entry point, mapped onto the
source's `FMIndex.__init__`.  The constructor body (`sorted`, a list
comprehension, `Counter`-based counting, rank-structure construction) has
no failure path and performs no input validation, so construction succeeds
on every input text. -/
def build_index (text : List Char) : Except InvalidInputError FMIndex :=
  Except.ok (mkFMIndex text)

/-! ### Lexicographic order lemmas for `listLt` -/

/-- `w` is a prefix of `u` (the match predicate: `u.take |w| = w`). -/
def pref (w u : List Char) : Prop := u.take w.length = w

instance (w u : List Char) : Decidable (pref w u) := by
  unfold pref
  infer_instance

theorem listLt_cons_iff {x y : Char} {xs ys : List Char} :
    listLt (x :: xs) (y :: ys) = true ↔ (x < y ∨ (x = y ∧ listLt xs ys = true)) := by
  by_cases h1 : x < y
  · simp [listLt, h1]
  · by_cases h2 : y < x
    · have hne : ¬x = y := ne_of_gt h2
      simp [listLt, h1, h2, hne]
    · have hxy : x = y := le_antisymm (not_lt.mp h2) (not_lt.mp h1)
      simp [listLt, h1, h2, hxy]

@[simp] theorem listLt_nil_right (u : List Char) : listLt u [] = false := by
  cases u <;> rfl

@[simp] theorem listLt_nil_cons (y : Char) (ys : List Char) :
    listLt [] (y :: ys) = true := rfl

theorem listLt_irrefl (u : List Char) : listLt u u = false := by
  induction u with
  | nil => rfl
  | cons x xs ih => simp [listLt, lt_irrefl, ih]

theorem listLt_trans {a b c : List Char} (hab : listLt a b = true)
    (hbc : listLt b c = true) : listLt a c = true := by
  induction a generalizing b c with
  | nil =>
    cases b with
    | nil => simp at hab
    | cons y ys =>
      cases c with
      | nil => simp at hbc
      | cons z zs => simp
  | cons x xs ih =>
    cases b with
    | nil => simp at hab
    | cons y ys =>
      cases c with
      | nil => simp at hbc
      | cons z zs =>
        rw [listLt_cons_iff] at hab hbc ⊢
        rcases hab with h1 | ⟨e1, h1⟩
        · rcases hbc with h2 | ⟨e2, h2⟩
          · exact Or.inl (lt_trans h1 h2)
          · exact Or.inl (lt_of_lt_of_eq h1 e2)
        · rcases hbc with h2 | ⟨e2, h2⟩
          · exact Or.inl (lt_of_eq_of_lt e1 h2)
          · exact Or.inr ⟨e1.trans e2, ih h1 h2⟩

theorem listLt_asymm {a b : List Char} (hab : listLt a b = true) :
    listLt b a = false := by
  by_contra h
  rw [Bool.not_eq_false] at h
  have := listLt_trans hab h
  rw [listLt_irrefl] at this
  exact Bool.false_ne_true this

theorem listLt_connex {u v : List Char} (huv : listLt u v = false)
    (hvu : listLt v u = false) : u = v := by
  induction u generalizing v with
  | nil =>
    cases v with
    | nil => rfl
    | cons y ys => simp at huv
  | cons x xs ih =>
    cases v with
    | nil => simp at hvu
    | cons y ys =>
      have h1 : ¬(x < y ∨ (x = y ∧ listLt xs ys = true)) := by
        rw [← listLt_cons_iff]
        simp [huv]
      have h2 : ¬(y < x ∨ (y = x ∧ listLt ys xs = true)) := by
        rw [← listLt_cons_iff]
        simp [hvu]
      push_neg at h1 h2
      have hxy : x = y := le_antisymm h2.1 h1.1
      have hxs : xs = ys :=
        ih (Bool.eq_false_iff.mpr (h1.2 hxy)) (Bool.eq_false_iff.mpr (h2.2 hxy.symm))
      rw [hxy, hxs]

theorem listLt_of_ne {u v : List Char} (h : u ≠ v) :
    listLt u v = true ∨ listLt v u = true := by
  by_contra hc
  push_neg at hc
  exact h (listLt_connex (Bool.eq_false_iff.mpr hc.1) (Bool.eq_false_iff.mpr hc.2))

/-! ### Prefix-predicate lemmas -/

@[simp] theorem pref_nil (u : List Char) : pref [] u := rfl

theorem pref_refl (w : List Char) : pref w w := by
  simp [pref]

theorem pref_cons_iff {c : Char} {w u : List Char} :
    pref (c :: w) u ↔ ∃ us, u = c :: us ∧ pref w us := by
  cases u with
  | nil => simp [pref]
  | cons x xs =>
    constructor
    · intro h
      have h' : x = c ∧ List.take w.length xs = w := by
        simpa [pref] using h
      exact ⟨xs, by rw [h'.1], h'.2⟩
    · rintro ⟨us, hus, hp⟩
      rw [hus]
      simpa [pref] using hp

theorem pref_length_le {w u : List Char} (h : pref w u) : w.length ≤ u.length := by
  have := congrArg List.length h
  simp only [List.length_take] at this
  omega

/-- A prefix is `≤` in lexicographic order: `pref w u → ¬ (u < w)`. -/
theorem pref_not_lt {w u : List Char} (h : pref w u) : listLt u w = false := by
  induction w generalizing u with
  | nil => simp
  | cons c w' ih =>
    rcases pref_cons_iff.mp h with ⟨us, rfl, hp⟩
    have hrec := ih hp
    rw [Bool.eq_false_iff]
    intro hlt
    rcases listLt_cons_iff.mp hlt with h1 | ⟨_, h2⟩
    · exact lt_irrefl c h1
    · exact Bool.eq_false_iff.mp hrec h2

theorem pref_eq_or_lt {w v : List Char} (h : pref w v) :
    v = w ∨ listLt w v = true := by
  induction w generalizing v with
  | nil =>
    cases v with
    | nil => exact Or.inl rfl
    | cons y ys => exact Or.inr (by simp)
  | cons c w' ih =>
    rcases pref_cons_iff.mp h with ⟨us, rfl, hp⟩
    rcases ih hp with h1 | h1
    · exact Or.inl (by rw [h1])
    · exact Or.inr (listLt_cons_iff.mpr (Or.inr ⟨rfl, h1⟩))

/-- Anything below `w` is below every extension of `w`. -/
theorem lt_of_lt_of_pref {u w v : List Char} (hlt : listLt u w = true)
    (hp : pref w v) : listLt u v = true := by
  rcases pref_eq_or_lt hp with h | h
  · rw [h]; exact hlt
  · exact listLt_trans hlt h

/-- Anything strictly above `w` and not extending `w` is above every
extension of `w`. -/
theorem lt_of_pref_of_lt {w u v : List Char} (hlt : listLt w u = true)
    (hnp : ¬pref w u) (hp : pref w v) : listLt v u = true := by
  induction w generalizing u v with
  | nil => exact absurd (pref_nil u) hnp
  | cons c w' ih =>
    rcases pref_cons_iff.mp hp with ⟨vs, rfl, hpv⟩
    cases u with
    | nil => simp at hlt
    | cons x xs =>
      rcases listLt_cons_iff.mp hlt with h1 | ⟨he, h2⟩
      · exact listLt_cons_iff.mpr (Or.inl h1)
      · have hnpx : ¬pref w' xs := by
          intro hpx
          exact hnp (pref_cons_iff.mpr ⟨xs, by rw [he], hpx⟩)
        exact listLt_cons_iff.mpr (Or.inr ⟨he, ih h2 hnpx hpv⟩)

theorem pref_cons_elim {c : Char} {w u : List Char} (h : pref (c :: w) u) :
    ∃ us, u = c :: us ∧ pref w us := pref_cons_iff.mp h

/-- A prefix of an append decomposes: `pref (a ++ b) u → pref b (u.drop |a|)`. -/
theorem pref_append_drop {a b u : List Char} (h : pref (a ++ b) u) :
    pref b (u.drop a.length) := by
  induction a generalizing u with
  | nil => simpa using h
  | cons c a' ih =>
    rcases pref_cons_iff.mp h with ⟨us, rfl, hp⟩
    simpa using ih hp

/-! ### Counting helpers -/

theorem countP_or_of_disjoint {α : Type} (p q : α → Bool) (l : List α)
    (h : ∀ a ∈ l, ¬(p a = true ∧ q a = true)) :
    List.countP (fun a => p a || q a) l = List.countP p l + List.countP q l := by
  induction l with
  | nil => simp
  | cons x xs ih =>
    have hx := h x (List.mem_cons_self x xs)
    have hxs : ∀ a ∈ xs, ¬(p a = true ∧ q a = true) :=
      fun a ha => h a (List.mem_cons_of_mem x ha)
    rw [List.countP_cons, List.countP_cons, List.countP_cons, ih hxs]
    cases hp : p x <;> cases hq : q x <;> simp_all <;> omega

theorem map_getD_range {α : Type} (l : List α) (d : α) :
    (List.range l.length).map (fun i => l.getD i d) = l := by
  induction l with
  | nil => rfl
  | cons x xs ih =>
    rw [List.length_cons, List.range_succ_eq_map, List.map_cons, List.map_map]
    have hc : ((fun i => (x :: xs).getD i d) ∘ Nat.succ) = fun i => xs.getD i d := rfl
    rw [hc, List.getD_cons_zero, ih]

theorem countP_eq_countP_range {α : Type} (p : α → Bool) (l : List α) (d : α) :
    List.countP p l = List.countP (fun r => p (l.getD r d)) (List.range l.length) := by
  conv_lhs => rw [← map_getD_range l d]
  rw [List.countP_map]
  rfl

theorem countP_range_decide_lt (q : Nat → Bool) (K n : Nat) :
    List.countP (fun r => decide (r < K) && q r) (List.range n) =
      List.countP q (List.range (min K n)) := by
  induction n with
  | zero => simp
  | succ m ih =>
    rw [List.range_succ, List.countP_append, ih]
    rcases le_or_lt K m with h | h
    · have h1 : min K (m + 1) = K := by omega
      have h2 : min K m = K := by omega
      have h3 : ¬(m < K) := by omega
      simp [h1, h2, h3]
    · have h1 : min K (m + 1) = m + 1 := by omega
      have h2 : min K m = m := by omega
      simp [h1, h2, h, List.range_succ, List.countP_cons]

theorem getD_take {α : Type} {l : List α} {K r : Nat} (h : r < K) (d : α) :
    (l.take K).getD r d = l.getD r d := by
  rw [List.getD_eq_getElem?_getD, List.getD_eq_getElem?_getD,
    List.getElem?_take_of_lt h]

theorem countP_take_eq {α : Type} (p : α → Bool) (l : List α) (K : Nat)
    (hK : K ≤ l.length) (d : α) :
    List.countP p (l.take K) =
      List.countP (fun r => decide (r < K) && p (l.getD r d)) (List.range l.length) := by
  rw [countP_range_decide_lt]
  have hmin : min K l.length = K := by omega
  rw [hmin]
  rw [countP_eq_countP_range p (l.take K) d]
  have hlen : (l.take K).length = K := by
    rw [List.length_take]; omega
  rw [hlen]
  apply List.countP_congr
  intro r hr
  rw [List.mem_range] at hr
  rw [getD_take hr]

/-! ### Suffix-array structure -/

theorem getD_eq_getElem_of_lt {α : Type} {l : List α} {r : Nat} (h : r < l.length) (d : α) :
    l.getD r d = l[r] := by
  rw [List.getD_eq_getElem?_getD, List.getElem?_eq_getElem h, Option.getD_some]

theorem sufLe_iff {t : List Char} {i j : Nat} :
    sufLe t i j ↔ listLt (t.drop j) (t.drop i) = false := by
  unfold sufLe listLe
  cases h : listLt (t.drop j) (t.drop i) <;> simp [h]

instance (t : List Char) : IsTotal Nat (sufLe t) := by
  constructor
  intro i j
  by_cases h : listLt (t.drop j) (t.drop i) = true
  · exact Or.inr (sufLe_iff.mpr (listLt_asymm h))
  · exact Or.inl (sufLe_iff.mpr (Bool.eq_false_iff.mpr h))

instance (t : List Char) : IsTrans Nat (sufLe t) := by
  constructor
  intro i j k hij hjk
  rw [sufLe_iff] at hij hjk ⊢
  by_contra hc
  rw [Bool.not_eq_false] at hc
  by_cases he : t.drop j = t.drop k
  · rw [← he] at hc
    exact Bool.eq_false_iff.mp hij hc
  · rcases listLt_of_ne he with h | h
    · exact Bool.eq_false_iff.mp hij (listLt_trans h hc)
    · exact Bool.eq_false_iff.mp hjk h

theorem sa_perm (t : List Char) :
    List.Perm (create_suffix_array_naive t) (List.range t.length) :=
  List.perm_insertionSort (sufLe t) (List.range t.length)

theorem sa_length (t : List Char) :
    (create_suffix_array_naive t).length = t.length := by
  rw [(sa_perm t).length_eq, List.length_range]

theorem sa_mem_iff {t : List Char} {i : Nat} :
    i ∈ create_suffix_array_naive t ↔ i < t.length := by
  rw [(sa_perm t).mem_iff, List.mem_range]

theorem sa_nodup (t : List Char) : (create_suffix_array_naive t).Nodup :=
  (sa_perm t).nodup_iff.mpr (List.nodup_range t.length)

theorem sa_pairwise (t : List Char) :
    List.Pairwise (sufLe t) (create_suffix_array_naive t) :=
  List.sorted_insertionSort (sufLe t) (List.range t.length)

theorem drop_ne_of_ne {t : List Char} {i j : Nat} (hi : i < t.length)
    (hj : j < t.length) (hij : i ≠ j) : t.drop i ≠ t.drop j := by
  intro h
  have := congrArg List.length h
  simp only [List.length_drop] at this
  omega

/-- Suffixes at distinct suffix-array rows are strictly ordered. -/
theorem sa_getD_lt (t : List Char) {r1 r2 : Nat}
    (h2 : r2 < (create_suffix_array_naive t).length) (hlt : r1 < r2) :
    listLt (t.drop ((create_suffix_array_naive t).getD r1 0))
      (t.drop ((create_suffix_array_naive t).getD r2 0)) = true := by
  set sa := create_suffix_array_naive t with hsa
  have h1 : r1 < sa.length := lt_trans hlt h2
  rw [getD_eq_getElem_of_lt h1, getD_eq_getElem_of_lt h2]
  have hle : sufLe t sa[r1] sa[r2] :=
    (List.pairwise_iff_getElem.mp (sa_pairwise t)) r1 r2 h1 h2 hlt
  rw [sufLe_iff] at hle
  have hne : sa[r1] ≠ sa[r2] := by
    intro h
    exact absurd ((sa_nodup t).getElem_inj_iff.mp h) (Nat.ne_of_lt hlt)
  have hm1 : sa[r1] < t.length := sa_mem_iff.mp (List.getElem_mem h1)
  have hm2 : sa[r2] < t.length := sa_mem_iff.mp (List.getElem_mem h2)
  rcases listLt_of_ne (drop_ne_of_ne hm1 hm2 hne) with h | h
  · exact h
  · exact absurd h (Bool.eq_false_iff.mp hle)

theorem countP_eq_of_pos_iff {α : Type} (l : List α) (p : α → Bool) (K : Nat)
    (d : α) (h : ∀ r, r < l.length → (p (l.getD r d) = true ↔ r < K))
    (hK : K ≤ l.length) :
    List.countP p l = K := by
  rw [countP_eq_countP_range p l d]
  have h1 : List.countP (fun r => p (l.getD r d)) (List.range l.length) =
      List.countP (fun r => decide (r < K)) (List.range l.length) := by
    apply List.countP_congr
    intro r hr
    rw [List.mem_range] at hr
    simp only [decide_eq_true_eq]
    exact h r hr
  rw [h1]
  have h2 : List.countP (fun r => decide (r < K)) (List.range l.length) =
      List.countP (fun r => decide (r < K) && true) (List.range l.length) := by
    apply List.countP_congr
    intro r _
    simp
  rw [h2, countP_range_decide_lt (fun _ => true) K l.length]
  simp [Nat.min_eq_left hK]

/-- Each suffix-array row equals the number of text suffixes strictly
below its own suffix. -/
theorem sa_row_rank (t : List Char) {r : Nat}
    (hr : r < (create_suffix_array_naive t).length) :
    List.countP
      (fun j => listLt (t.drop j) (t.drop ((create_suffix_array_naive t).getD r 0)))
      (List.range t.length) = r := by
  set sa := create_suffix_array_naive t with hsa
  rw [← (sa_perm t).countP_eq]
  apply countP_eq_of_pos_iff sa _ r 0
  · intro r' hr'
    constructor
    · intro hlt
      by_contra hge
      push_neg at hge
      rcases Nat.lt_or_ge r r' with h | h
      · have := sa_getD_lt t hr' h
        rw [listLt_asymm this] at hlt
        exact Bool.false_ne_true hlt
      · have : r = r' := le_antisymm hge h
        rw [this, listLt_irrefl] at hlt
        exact Bool.false_ne_true hlt
    · intro h
      exact sa_getD_lt t hr h
  · exact le_of_lt hr

/-! ### The match interval of a string inside the suffix array -/

/-- Number of text suffixes lexicographically below `w`. -/
def loCount (t w : List Char) : Nat :=
  List.countP (fun j => listLt (t.drop j) w) (List.range t.length)

/-- Number of text suffixes having `w` as a prefix, i.e. the number of
occurrences of `w` in `t`. -/
def mcCount (t w : List Char) : Nat :=
  List.countP (fun j => decide (pref w (t.drop j))) (List.range t.length)

theorem lo_add_mc_eq (t w : List Char) :
    loCount t w + mcCount t w =
      List.countP (fun j => listLt (t.drop j) w || decide (pref w (t.drop j)))
        (List.range t.length) := by
  symm
  apply countP_or_of_disjoint
  intro j _
  rintro ⟨h1, h2⟩
  rw [decide_eq_true_eq] at h2
  exact absurd h1 (Bool.eq_false_iff.mp (pref_not_lt h2))

theorem lo_add_mc_le (t w : List Char) :
    loCount t w + mcCount t w ≤ t.length := by
  rw [lo_add_mc_eq]
  have h : List.countP (fun j => listLt (t.drop j) w || decide (pref w (t.drop j)))
      (List.range t.length) ≤ (List.range t.length).length :=
    List.countP_le_length _
  simpa using h

theorem sa_getD_lt_length (t : List Char) {r : Nat}
    (hr : r < (create_suffix_array_naive t).length) :
    (create_suffix_array_naive t).getD r 0 < t.length := by
  rw [getD_eq_getElem_of_lt hr]
  exact sa_mem_iff.mp (List.getElem_mem hr)

/-- A suffix-array row is below the `w`-block exactly when its suffix is
lexicographically below `w`. -/
theorem row_lt_lo_iff (t w : List Char) {r : Nat}
    (hr : r < (create_suffix_array_naive t).length) :
    r < loCount t w ↔
      listLt (t.drop ((create_suffix_array_naive t).getD r 0)) w = true := by
  set sa := create_suffix_array_naive t with hsa
  set S := t.drop (sa.getD r 0) with hS
  constructor
  · intro hlo
    by_contra hc
    have hns : listLt S w = false := Bool.eq_false_iff.mpr hc
    have hsub : List.countP (fun j => listLt (t.drop j) w) (List.range t.length) ≤
        List.countP (fun j => listLt (t.drop j) S) (List.range t.length) := by
      apply List.countP_mono_left
      intro j _ hj
      by_cases he : S = w
      · rw [← he] at hj; exact hj
      · rcases listLt_of_ne he with h | h
        · exact absurd h (Bool.eq_false_iff.mp hns)
        · exact listLt_trans hj h
    rw [sa_row_rank t hr] at hsub
    exact absurd hlo (not_lt.mpr hsub)
  · intro hlt
    have h1 : List.countP
        (fun j => listLt (t.drop j) S || decide (t.drop j = S)) (List.range t.length)
        = List.countP (fun j => listLt (t.drop j) S) (List.range t.length)
          + List.countP (fun j => decide (t.drop j = S)) (List.range t.length) := by
      apply countP_or_of_disjoint
      intro j _
      rintro ⟨ha, hb⟩
      rw [decide_eq_true_eq] at hb
      rw [hb, listLt_irrefl] at ha
      exact Bool.false_ne_true ha
    have h2 : 0 < List.countP (fun j => decide (t.drop j = S)) (List.range t.length) := by
      rw [List.countP_pos_iff]
      refine ⟨sa.getD r 0, ?_, decide_eq_true ?_⟩
      · rw [List.mem_range]
        exact sa_getD_lt_length t hr
      · exact hS.symm
    have h3 : List.countP
        (fun j => listLt (t.drop j) S || decide (t.drop j = S)) (List.range t.length)
        ≤ List.countP (fun j => listLt (t.drop j) w) (List.range t.length) := by
      apply List.countP_mono_left
      intro j _ hj
      rw [Bool.or_eq_true] at hj
      rcases hj with h | h
      · exact listLt_trans h hlt
      · rw [decide_eq_true_eq] at h
        rw [h]; exact hlt
    rw [h1, sa_row_rank t hr] at h3
    unfold loCount
    omega

/-- A suffix-array row is below or inside the `w`-block exactly when its
suffix is below `w` or extends `w`. -/
theorem row_lt_lo_add_mc_iff (t w : List Char) {r : Nat}
    (hr : r < (create_suffix_array_naive t).length) :
    r < loCount t w + mcCount t w ↔
      (listLt (t.drop ((create_suffix_array_naive t).getD r 0)) w = true
        ∨ pref w (t.drop ((create_suffix_array_naive t).getD r 0))) := by
  set sa := create_suffix_array_naive t with hsa
  set S := t.drop (sa.getD r 0) with hS
  constructor
  · intro h
    by_contra hc
    push_neg at hc
    obtain ⟨hc1, hc2⟩ := hc
    have hSw : S ≠ w := fun he => hc2 (by rw [he]; exact pref_refl w)
    have hlt : listLt w S = true := by
      rcases listLt_of_ne hSw with h' | h'
      · exact absurd h' hc1
      · exact h'
    have hsub : List.countP
        (fun j => listLt (t.drop j) w || decide (pref w (t.drop j)))
        (List.range t.length)
        ≤ List.countP (fun j => listLt (t.drop j) S) (List.range t.length) := by
      apply List.countP_mono_left
      intro j _ hj
      rw [Bool.or_eq_true] at hj
      rcases hj with h' | h'
      · exact listLt_trans h' hlt
      · rw [decide_eq_true_eq] at h'
        exact lt_of_pref_of_lt hlt hc2 h'
    rw [sa_row_rank t hr] at hsub
    rw [lo_add_mc_eq] at h
    omega
  · intro h
    rcases h with h | h
    · have := (row_lt_lo_iff t w hr).mpr h
      omega
    · have h1 : List.countP
          (fun j => listLt (t.drop j) S || decide (t.drop j = S)) (List.range t.length)
          = List.countP (fun j => listLt (t.drop j) S) (List.range t.length)
            + List.countP (fun j => decide (t.drop j = S)) (List.range t.length) := by
        apply countP_or_of_disjoint
        intro j _
        rintro ⟨ha, hb⟩
        rw [decide_eq_true_eq] at hb
        rw [hb, listLt_irrefl] at ha
        exact Bool.false_ne_true ha
      have h2 : 0 < List.countP (fun j => decide (t.drop j = S)) (List.range t.length) := by
        rw [List.countP_pos_iff]
        refine ⟨sa.getD r 0, ?_, decide_eq_true ?_⟩
        · rw [List.mem_range]
          exact sa_getD_lt_length t hr
        · exact hS.symm
      have h3 : List.countP
          (fun j => listLt (t.drop j) S || decide (t.drop j = S)) (List.range t.length)
          ≤ List.countP
            (fun j => listLt (t.drop j) w || decide (pref w (t.drop j)))
            (List.range t.length) := by
        apply List.countP_mono_left
        intro j _ hj
        rw [Bool.or_eq_true] at hj
        rw [Bool.or_eq_true]
        rcases hj with h' | h'
        · by_cases hp : pref w (t.drop j)
          · exact Or.inr (decide_eq_true hp)
          · by_cases he : t.drop j = w
            · exact absurd (by rw [he]; exact pref_refl w) hp
            · rcases listLt_of_ne he with h'' | h''
              · exact Or.inl h''
              · have := lt_of_pref_of_lt h'' hp h
                rw [listLt_asymm this] at h'
                exact absurd h' Bool.false_ne_true
        · rw [decide_eq_true_eq] at h'
          refine Or.inr (decide_eq_true ?_)
          rw [h']
          exact h
      rw [h1, sa_row_rank t hr, ← lo_add_mc_eq] at h3
      omega

/-- A suffix-array row lies in the `w`-block exactly when its suffix
extends `w`. -/
theorem row_pref_iff (t w : List Char) {r : Nat}
    (hr : r < (create_suffix_array_naive t).length) :
    (loCount t w ≤ r ∧ r < loCount t w + mcCount t w) ↔
      pref w (t.drop ((create_suffix_array_naive t).getD r 0)) := by
  constructor
  · rintro ⟨h1, h2⟩
    rcases (row_lt_lo_add_mc_iff t w hr).mp h2 with h | h
    · exact absurd ((row_lt_lo_iff t w hr).mpr h) (not_lt.mpr h1)
    · exact h
  · intro h
    refine ⟨?_, (row_lt_lo_add_mc_iff t w hr).mpr (Or.inr h)⟩
    by_contra hc
    push_neg at hc
    have := (row_lt_lo_iff t w hr).mp hc
    exact absurd this (Bool.eq_false_iff.mp (pref_not_lt h))

/-! ### BWT facts -/

theorem pyGet_natCast (t : List Char) (i : Nat) : pyGet t (i : Int) = t.getD i '?' := by
  unfold pyGet
  have h : ¬((i : Int) < 0) := by omega
  simp [h]

theorem pyGet_neg_one (t : List Char) :
    pyGet t (-1) = t.getD (t.length - 1) '?' := by
  unfold pyGet
  have h : (-1 : Int) < 0 := by omega
  simp only [if_pos h]
  congr 1
  omega

theorem map_getD_range_take (t : List Char) {k : Nat} (hk : k ≤ t.length) (d : Char) :
    (List.range k).map (fun i => t.getD i d) = t.take k := by
  induction k with
  | zero => simp
  | succ m ih =>
    have hm : m ≤ t.length := by omega
    have hmlt : m < t.length := by omega
    rw [List.range_succ, List.map_append, ih hm, List.map_cons, List.map_nil]
    rw [List.take_succ, getD_eq_getElem_of_lt hmlt, List.getElem?_eq_getElem hmlt]
    rfl

theorem bwt_fun_range_perm (t : List Char) :
    List.Perm ((List.range t.length).map (fun i : Nat => pyGet t ((i : Int) - 1))) t := by
  rcases Nat.eq_zero_or_pos t.length with hz | hpos
  · have hnil : t = [] := List.length_eq_zero.mp hz
    subst hnil
    simp
  · obtain ⟨m, hm⟩ : ∃ m, t.length = m + 1 := ⟨t.length - 1, by omega⟩
    have hmlt : m < t.length := by omega
    have e1 : (List.range t.length).map (fun i : Nat => pyGet t ((i : Int) - 1))
        = t.getD m '?' :: t.take m := by
      rw [hm, List.range_succ_eq_map, List.map_cons, List.map_map]
      have h0 : pyGet t (((0 : Nat) : Int) - 1) = t.getD m '?' := by
        have he : ((0 : Nat) : Int) - 1 = -1 := by omega
        rw [he, pyGet_neg_one, hm]
        simp
      have hf : ((fun i : Nat => pyGet t ((i : Int) - 1)) ∘ Nat.succ)
          = fun i : Nat => t.getD i '?' := by
        funext i
        have he : ((Nat.succ i : Nat) : Int) - 1 = (i : Int) := by omega
        simp only [Function.comp_apply, he, pyGet_natCast]
      rw [h0, hf, map_getD_range_take t (by omega) '?']
    rw [e1]
    have hsplit : t = t.take m ++ [t.getD m '?'] := by
      conv_lhs => rw [← List.take_append_drop m t]
      congr 1
      rw [List.drop_eq_getElem_cons hmlt, getD_eq_getElem_of_lt hmlt,
        List.drop_eq_nil_of_le (by omega)]
    conv_rhs => rw [hsplit]
    have hp := @List.perm_append_comm Char [t.getD m '?'] (t.take m)
    simpa using hp

theorem bwt_eq (t : List Char) :
    (mkFMIndex t).bwt
      = (create_suffix_array_naive t).map (fun i : Nat => pyGet t ((i : Int) - 1)) := rfl

theorem suffix_array_eq (t : List Char) :
    (mkFMIndex t).suffix_array = create_suffix_array_naive t := rfl

theorem text_eq (t : List Char) : (mkFMIndex t).text = t := rfl

theorem bwt_perm (t : List Char) : List.Perm (mkFMIndex t).bwt t := by
  rw [bwt_eq]
  exact ((sa_perm t).map _).trans (bwt_fun_range_perm t)

theorem bwt_length (t : List Char) : (mkFMIndex t).bwt.length = t.length :=
  (bwt_perm t).length_eq

theorem mem_bwt_iff {t : List Char} {c : Char} :
    c ∈ (mkFMIndex t).bwt ↔ c ∈ t := (bwt_perm t).mem_iff

/-- The count table as a count over text positions. -/
theorem n_less_than_bwt (t : List Char) (c : Char) :
    n_less_than (mkFMIndex t).bwt c
      = List.countP (fun j => decide (t.getD j '?' < c)) (List.range t.length) := by
  unfold n_less_than
  rw [← List.countP_eq_length_filter, (bwt_perm t).countP_eq,
    countP_eq_countP_range _ t '?']

/-- Re-indexing a per-position count through the cyclic successor
`j ↦ (j+1) % n`: for a character `c` other than the final character of the
text, counting positions `i` whose cyclically preceding character
`text[i - 1]` is `c` (paired with any predicate on the suffix at `i`)
equals counting positions `j` holding `c` (paired with the predicate on
the suffix at `j + 1`). -/
theorem countP_shift (t : List Char) (ht : t ≠ []) {c : Char}
    (hc : c ≠ t.getD (t.length - 1) '?') (P : List Char → Bool) :
    List.countP (fun i : Nat => decide (pyGet t ((i : Int) - 1) = c) && P (t.drop i))
      (List.range t.length)
    = List.countP (fun j : Nat => decide (t.getD j '?' = c) && P (t.drop (j + 1)))
      (List.range t.length) := by
  obtain ⟨m, hm⟩ : ∃ m, t.length = m + 1 := by
    cases hl : t.length with
    | zero => exact absurd (List.length_eq_zero.mp hl) ht
    | succ k => exact ⟨k, rfl⟩
  set h : Nat → Nat := fun j => (j + 1) % t.length with hh
  have hmap1 : (List.range m).map h = (List.range m).map Nat.succ := by
    apply List.map_congr_left
    intro j hj
    rw [List.mem_range] at hj
    show (j + 1) % t.length = j + 1
    apply Nat.mod_eq_of_lt
    omega
  have hmap0 : h m = 0 := by
    show (m + 1) % t.length = 0
    rw [hm, Nat.mod_self]
  have hperm : List.Perm ((List.range t.length).map h) (List.range t.length) := by
    have e1 : (List.range t.length).map h = (List.range m).map Nat.succ ++ [0] := by
      rw [hm, List.range_succ, List.map_append, List.map_cons, List.map_nil, hmap1, hmap0]
    have e2 : List.range t.length = 0 :: (List.range m).map Nat.succ := by
      rw [hm, List.range_succ_eq_map]
    rw [e1, e2]
    exact (@List.perm_append_comm Nat ((List.range m).map Nat.succ) [0]).trans (by simp)
  have key : List.countP
      (fun i : Nat => decide (pyGet t ((i : Int) - 1) = c) && P (t.drop i))
      (List.range t.length)
      = List.countP
        (fun j : Nat => decide (pyGet t ((h j : Int) - 1) = c) && P (t.drop (h j)))
        (List.range t.length) := by
    rw [← hperm.countP_eq, List.countP_map]
    rfl
  rw [key]
  apply List.countP_congr
  intro j hj
  rw [List.mem_range] at hj
  by_cases hjm : j = m
  · subst hjm
    have hh0 : h j = 0 := by
      show (j + 1) % t.length = 0
      rw [hm, Nat.mod_self]
    have hl : pyGet t ((h j : Int) - 1) = t.getD (t.length - 1) '?' := by
      rw [hh0]
      show pyGet t ((0 : Int) - 1) = _
      have : (0 : Int) - 1 = -1 := by omega
      rw [this, pyGet_neg_one]
    have hr : t.getD j '?' = t.getD (t.length - 1) '?' := by
      rw [hm]
      simp
    rw [hl, hr]
    have hfalse : decide (t.getD (t.length - 1) '?' = c) = false :=
      decide_eq_false (fun he => hc he.symm)
    rw [hfalse]
    simp
  · have hjlt : j + 1 < t.length := by omega
    have hh1 : h j = j + 1 := Nat.mod_eq_of_lt hjlt
    rw [hh1]
    have : ((j + 1 : Nat) : Int) - 1 = (j : Int) := by omega
    rw [this, pyGet_natCast]

/-! ### Bridging: rank counts over the BWT versus occurrence counts in the text -/

theorem beq_char_eq_decide (a c : Char) : (a == c) = decide (a = c) := by
  by_cases h : a = c
  · subst h; simp
  · simp [h]

theorem loCount_le (t w : List Char) : loCount t w ≤ t.length := by
  unfold loCount
  have h : List.countP (fun j => listLt (t.drop j) w) (List.range t.length)
      ≤ (List.range t.length).length := List.countP_le_length _
  simpa using h

/-- Counting occurrences of `c` among the first `K` BWT entries, where the
first `K` suffix-array rows are characterized by a predicate `Q` on their
suffixes, equals counting text positions `i` with cyclic predecessor `c`
whose suffix satisfies `Q`. -/
theorem count_bwt_take_eq (t : List Char) (c : Char) (K : Nat) (hK : K ≤ t.length)
    (Q : List Char → Bool)
    (hQ : ∀ r, r < t.length →
      (r < K ↔ Q (t.drop ((create_suffix_array_naive t).getD r 0)) = true)) :
    ((mkFMIndex t).bwt.take K).count c
      = List.countP (fun i : Nat => decide (pyGet t ((i : Int) - 1) = c) && Q (t.drop i))
          (List.range t.length) := by
  set sa := create_suffix_array_naive t with hsa
  have hsal : sa.length = t.length := sa_length t
  have h1 : (mkFMIndex t).bwt.take K
      = (sa.take K).map (fun i : Nat => pyGet t ((i : Int) - 1)) := by
    rw [bwt_eq, List.map_take]
  rw [h1, List.count_eq_countP, List.countP_map]
  have h2 : List.countP
      ((fun x => x == c) ∘ fun i : Nat => pyGet t ((i : Int) - 1)) (sa.take K)
      = List.countP (fun i : Nat => decide (pyGet t ((i : Int) - 1) = c)) (sa.take K) := by
    apply List.countP_congr
    intro i _
    rw [Function.comp_apply, beq_char_eq_decide]
  rw [h2, countP_take_eq _ sa K (by omega) 0]
  have h3 : List.countP
      (fun r => decide (r < K) && decide (pyGet t ((sa.getD r 0 : Int) - 1) = c))
      (List.range sa.length)
      = List.countP
        (fun r => decide (pyGet t ((sa.getD r 0 : Int) - 1) = c)
          && Q (t.drop (sa.getD r 0)))
        (List.range sa.length) := by
    apply List.countP_congr
    intro r hr
    rw [List.mem_range] at hr
    have hdec : decide (r < K) = Q (t.drop (sa.getD r 0)) := by
      by_cases h : r < K
      · rw [decide_eq_true h, ((hQ r (by omega)).mp h).symm]
      · rw [decide_eq_false h]
        by_cases hq : Q (t.drop (sa.getD r 0)) = true
        · exact absurd ((hQ r (by omega)).mpr hq) h
        · rw [Bool.eq_false_iff.mpr hq]
    rw [hdec, Bool.and_comm]
  have h4 : List.countP
      (fun r => decide (pyGet t ((sa.getD r 0 : Int) - 1) = c)
        && Q (t.drop (sa.getD r 0)))
      (List.range sa.length)
      = List.countP
        (fun i : Nat => decide (pyGet t ((i : Int) - 1) = c) && Q (t.drop i)) sa :=
    (countP_eq_countP_range
      (fun i : Nat => decide (pyGet t ((i : Int) - 1) = c) && Q (t.drop i)) sa 0).symm
  rw [h3, h4, (sa_perm t).countP_eq]

/-- Decomposition of `loCount` over the first character. -/
theorem loCount_cons (t : List Char) (c : Char) (s : List Char) :
    loCount t (c :: s)
      = List.countP (fun j : Nat => decide (t.getD j '?' < c)) (List.range t.length)
        + List.countP
            (fun j : Nat => decide (t.getD j '?' = c) && listLt (t.drop (j + 1)) s)
            (List.range t.length) := by
  unfold loCount
  have e1 : List.countP (fun j => listLt (t.drop j) (c :: s)) (List.range t.length)
      = List.countP
          (fun j : Nat => decide (t.getD j '?' < c)
            || (decide (t.getD j '?' = c) && listLt (t.drop (j + 1)) s))
          (List.range t.length) := by
    apply List.countP_congr
    intro j hj
    rw [List.mem_range] at hj
    have hd : t.drop j = t.getD j '?' :: t.drop (j + 1) := by
      rw [List.drop_eq_getElem_cons hj, getD_eq_getElem_of_lt hj]
    rw [hd, listLt_cons_iff]
    simp
  rw [e1]
  apply countP_or_of_disjoint
  intro j _
  rintro ⟨h1, h2⟩
  rw [decide_eq_true_eq] at h1
  rw [Bool.and_eq_true, decide_eq_true_eq] at h2
  rw [h2.1] at h1
  exact lt_irrefl c h1

theorem pref_cons_cons {c x : Char} {s xs : List Char} :
    pref (c :: s) (x :: xs) ↔ (x = c ∧ pref s xs) := by
  rw [pref_cons_iff]
  constructor
  · rintro ⟨us, hus, hp⟩
    injection hus with h1 h2
    exact ⟨h1, h2 ▸ hp⟩
  · rintro ⟨rfl, hp⟩
    exact ⟨xs, rfl, hp⟩

/-- Decomposition of `mcCount` over the first character. -/
theorem mcCount_cons (t : List Char) (c : Char) (s : List Char) :
    mcCount t (c :: s)
      = List.countP
          (fun j : Nat => decide (t.getD j '?' = c) && decide (pref s (t.drop (j + 1))))
          (List.range t.length) := by
  unfold mcCount
  apply List.countP_congr
  intro j hj
  rw [List.mem_range] at hj
  have hd : t.drop j = t.getD j '?' :: t.drop (j + 1) := by
    rw [List.drop_eq_getElem_cons hj, getD_eq_getElem_of_lt hj]
  rw [hd]
  simp [pref_cons_cons]

/-- In-alphabet backward step, lower bound: the new `start` numerator. -/
theorem step_count_start (t : List Char) (ht : t ≠ [])
    {c : Char} (hc : c ≠ t.getD (t.length - 1) '?') (s : List Char) :
    ((mkFMIndex t).bwt.take (loCount t s)).count c + n_less_than (mkFMIndex t).bwt c
      = loCount t (c :: s) := by
  rw [count_bwt_take_eq t c (loCount t s) (loCount_le t s) (fun u => listLt u s)
    (fun r hr => by
      have hr' : r < (create_suffix_array_naive t).length := by
        rw [sa_length]; omega
      exact row_lt_lo_iff t s hr')]
  rw [countP_shift t ht hc (fun u => listLt u s), n_less_than_bwt, loCount_cons]
  omega

/-- In-alphabet backward step, upper bound: the new `end` numerator. -/
theorem step_count_end (t : List Char) (ht : t ≠ [])
    {c : Char} (hc : c ≠ t.getD (t.length - 1) '?') (s : List Char) :
    ((mkFMIndex t).bwt.take (loCount t s + mcCount t s)).count c
        + n_less_than (mkFMIndex t).bwt c
      = loCount t (c :: s) + mcCount t (c :: s) := by
  rw [count_bwt_take_eq t c (loCount t s + mcCount t s) (lo_add_mc_le t s)
    (fun u => listLt u s || decide (pref s u))
    (fun r hr => by
      have hr' : r < (create_suffix_array_naive t).length := by
        rw [sa_length]; omega
      rw [row_lt_lo_add_mc_iff t s hr']
      simp)]
  rw [countP_shift t ht hc (fun u => listLt u s || decide (pref s u))]
  have hdist : (fun j : Nat => decide (t.getD j '?' = c)
        && (listLt (t.drop (j + 1)) s || decide (pref s (t.drop (j + 1)))))
      = fun j : Nat => (decide (t.getD j '?' = c) && listLt (t.drop (j + 1)) s)
        || (decide (t.getD j '?' = c) && decide (pref s (t.drop (j + 1)))) := by
    funext j
    rw [Bool.and_or_distrib_left]
  rw [hdist, countP_or_of_disjoint _ _ _ (by
    intro j _
    rintro ⟨h1, h2⟩
    rw [Bool.and_eq_true] at h1 h2
    simp only [decide_eq_true_eq] at h2
    exact absurd h1.2 (Bool.eq_false_iff.mp (pref_not_lt h2.2)))]
  rw [n_less_than_bwt, loCount_cons, mcCount_cons]
  omega

/-! ### The backward-search loop invariant -/

theorem loCount_nil (t : List Char) : loCount t [] = 0 := by
  unfold loCount
  rw [List.countP_eq_zero]
  intro j _
  simp

theorem mcCount_nil (t : List Char) : mcCount t [] = t.length := by
  unfold mcCount
  have h : List.countP (fun j => decide (pref [] (t.drop j))) (List.range t.length)
      = (List.range t.length).length := by
    rw [List.countP_eq_length]
    intro j _
    simp
  rw [h, List.length_range]

theorem mcCount_pos_iff (t w : List Char) :
    0 < mcCount t w ↔ ∃ j, j < t.length ∧ pref w (t.drop j) := by
  unfold mcCount
  rw [List.countP_pos_iff]
  constructor
  · rintro ⟨j, hj, hp⟩
    rw [List.mem_range] at hj
    rw [decide_eq_true_eq] at hp
    exact ⟨j, hj, hp⟩
  · rintro ⟨j, hj, hp⟩
    exact ⟨j, List.mem_range.mpr hj, decide_eq_true hp⟩

theorem mcCount_cons_of_not_mem (t : List Char) {c : Char}
    (h : c ∉ (mkFMIndex t).bwt) (s : List Char) : mcCount t (c :: s) = 0 := by
  have hct : c ∉ t := fun hm => h (mem_bwt_iff.mpr hm)
  unfold mcCount
  rw [List.countP_eq_zero]
  intro j hj
  rw [List.mem_range] at hj
  intro hp
  rw [decide_eq_true_eq] at hp
  have hd : t.drop j = t.getD j '?' :: t.drop (j + 1) := by
    rw [List.drop_eq_getElem_cons hj, getD_eq_getElem_of_lt hj]
  rw [hd, pref_cons_cons] at hp
  apply hct
  rw [← hp.1, getD_eq_getElem_of_lt hj]
  exact List.getElem_mem hj

theorem mcCount_append_zero (t : List Char) (u v : List Char) (hv : v ≠ [])
    (h : mcCount t v = 0) : mcCount t (u ++ v) = 0 := by
  unfold mcCount at h ⊢
  rw [List.countP_eq_zero] at h ⊢
  intro j hj hp
  rw [List.mem_range] at hj
  rw [decide_eq_true_eq] at hp
  have hlen : u.length + v.length ≤ (t.drop j).length := by
    have := pref_length_le hp
    rw [List.length_append] at this
    exact this
  rw [List.length_drop] at hlen
  have hvpos : 0 < v.length := List.length_pos.mpr hv
  have hlt : j + u.length < t.length := by omega
  apply h (j + u.length) (List.mem_range.mpr hlt)
  rw [decide_eq_true_eq]
  have := pref_append_drop hp
  rw [List.drop_drop] at this
  exact this

/-- One in-alphabet backward-search step maps the exact match interval of
`s` to the exact match interval of `c :: s`. -/
theorem backtrace_step_spec_mem (t : List Char) (ht : t ≠ [])
    {c : Char} (hc : c ≠ t.getD (t.length - 1) '?')
    (hmem : c ∈ (mkFMIndex t).bwt) (s : List Char) {s0 e0 : Int}
    (hs0 : s0 = (loCount t s : Int))
    (he0 : e0 = ((loCount t s + mcCount t s : Nat) : Int) - 1) :
    (mkFMIndex t).backtrace_step c s0 e0
      = ((loCount t (c :: s) : Int),
        ((loCount t (c :: s) + mcCount t (c :: s) : Nat) : Int) - 1) := by
  subst hs0 he0
  unfold FMIndex.backtrace_step rank_at_row
  rw [if_pos hmem]
  have e1 : ((loCount t s : Int) - 1 + 1).toNat = loCount t s := by omega
  have e2 : ((((loCount t s + mcCount t s : Nat) : Int) - 1) + 1).toNat
      = loCount t s + mcCount t s := by omega
  rw [e1, e2]
  have hA := step_count_start t ht hc s
  have hB := step_count_end t ht hc s
  rw [Prod.mk.injEq]
  constructor
  · omega
  · omega

/-- The main loop invariant of backward search: starting from the exact
interval for the already-scanned suffix `scur`, `goRange` over the
remaining (reversed) characters `cs` either ends at the exact interval
for the full scanned string, or stops with an empty interval when that
string has no occurrence. -/
theorem goRange_spec (t : List Char) (ht : t ≠ [])
    (hlast : t.getD (t.length - 1) '?' = '$') :
    ∀ (cs : List Char) (scur : List Char) (s0 e0 : Int), '$' ∉ cs →
      s0 = (loCount t scur : Int) →
      e0 = ((loCount t scur + mcCount t scur : Nat) : Int) - 1 →
      (((mkFMIndex t).goRange cs s0 e0).1
            = (loCount t (cs.reverse ++ scur) : Int)
          ∧ ((mkFMIndex t).goRange cs s0 e0).2
            = ((loCount t (cs.reverse ++ scur)
                + mcCount t (cs.reverse ++ scur) : Nat) : Int) - 1)
        ∨ (((mkFMIndex t).goRange cs s0 e0).1 > ((mkFMIndex t).goRange cs s0 e0).2
            ∧ mcCount t (cs.reverse ++ scur) = 0) := by
  intro cs
  induction cs with
  | nil =>
    intro scur s0 e0 _ hs0 he0
    simp only [List.reverse_nil, List.nil_append]
    exact Or.inl ⟨hs0, he0⟩
  | cons c cs' ih =>
    intro scur s0 e0 hdol hs0 he0
    have hcne : c ≠ '$' := fun h => hdol (h ▸ List.mem_cons_self c cs')
    have hdol' : '$' ∉ cs' := fun h => hdol (List.mem_cons_of_mem c h)
    have hw : (c :: cs').reverse ++ scur = cs'.reverse ++ (c :: scur) := by
      rw [List.reverse_cons, List.append_assoc]
      rfl
    rw [hw]
    have hunfold : (mkFMIndex t).goRange (c :: cs') s0 e0
        = (if ((mkFMIndex t).backtrace_step c s0 e0).1
              > ((mkFMIndex t).backtrace_step c s0 e0).2
           then (mkFMIndex t).backtrace_step c s0 e0
           else (mkFMIndex t).goRange cs' ((mkFMIndex t).backtrace_step c s0 e0).1
             ((mkFMIndex t).backtrace_step c s0 e0).2) := rfl
    by_cases hmem : c ∈ (mkFMIndex t).bwt
    · have hstep := backtrace_step_spec_mem t ht
        (fun h => absurd (h.trans hlast) hcne) hmem scur hs0 he0
      rw [hunfold, hstep]
      by_cases hempty : mcCount t (c :: scur) = 0
      · have hcond : ((loCount t (c :: scur) : Int))
            > ((loCount t (c :: scur) + mcCount t (c :: scur) : Nat) : Int) - 1 := by
          push_cast
          omega
        rw [if_pos hcond]
        refine Or.inr ⟨hcond, ?_⟩
        exact mcCount_append_zero t cs'.reverse (c :: scur) (List.cons_ne_nil c scur)
          hempty
      · have hcond : ¬(((loCount t (c :: scur) : Int))
            > ((loCount t (c :: scur) + mcCount t (c :: scur) : Nat) : Int) - 1) := by
          push_cast
          omega
        rw [if_neg hcond]
        exact ih (c :: scur) _ _ hdol' rfl rfl
    · have hstep : (mkFMIndex t).backtrace_step c s0 e0 = (e0 + 1, e0) := by
        unfold FMIndex.backtrace_step
        rw [if_neg hmem]
      rw [hunfold, hstep]
      have hcond : e0 + 1 > e0 := by omega
      rw [if_pos hcond]
      refine Or.inr ⟨hcond, ?_⟩
      exact mcCount_append_zero t cs'.reverse (c :: scur) (List.cons_ne_nil c scur)
        (mcCount_cons_of_not_mem t hmem scur)

/-! ### Correctness of `get_range`, `find` and `contains_substring` -/

theorem get_range_eq (fm : FMIndex) (p : List Char) :
    fm.get_range p = ((fm.goRange p.reverse 0 ((fm.text.length : Int) - 1)).1,
      (fm.goRange p.reverse 0 ((fm.text.length : Int) - 1)).2 + 1) := rfl

theorem find_eq (fm : FMIndex) (p : List Char) :
    fm.find p = if (fm.get_range p).1 < (fm.get_range p).2
      then pySlice fm.suffix_array (fm.get_range p).1 (fm.get_range p).2
      else [] := rfl

theorem contains_eq (fm : FMIndex) (p : List Char) :
    fm.contains_substring p = decide ((fm.get_range p).1 < (fm.get_range p).2) := rfl

/-- `get_range` returns the exact half-open match interval (or an empty
interval when the pattern has no occurrence). -/
theorem get_range_spec (t p : List Char) (ht : t ≠ [])
    (hlast : t.getD (t.length - 1) '?' = '$') (hp : '$' ∉ p) :
    ((mkFMIndex t).get_range p
        = ((loCount t p : Int), ((loCount t p + mcCount t p : Nat) : Int)))
      ∨ (((mkFMIndex t).get_range p).1 ≥ ((mkFMIndex t).get_range p).2
          ∧ mcCount t p = 0) := by
  have h0 : (0 : Int) = (loCount t [] : Int) := by rw [loCount_nil]; rfl
  have he : ((mkFMIndex t).text.length : Int) - 1
      = ((loCount t [] + mcCount t [] : Nat) : Int) - 1 := by
    rw [loCount_nil, mcCount_nil, text_eq]
    simp
  have hg := goRange_spec t ht hlast p.reverse [] 0
    (((mkFMIndex t).text.length : Int) - 1)
    (fun h => hp (List.mem_reverse.mp h)) h0 he
  rw [List.reverse_reverse, List.append_nil] at hg
  rcases hg with ⟨h1, h2⟩ | ⟨h1, h2⟩
  · left
    rw [get_range_eq, h1, h2, Prod.mk.injEq]
    constructor
    · rfl
    · omega
  · right
    rw [get_range_eq]
    refine ⟨?_, h2⟩
    simp only
    omega

theorem pySlice_natCast {α : Type} (l : List α) (a b : Nat) (ha : a ≤ l.length)
    (hb : b ≤ l.length) :
    pySlice l (a : Int) (b : Int) = (l.take b).drop a := by
  unfold pySlice
  have h1 : ¬((a : Int) < 0) := by omega
  have h2 : ¬((b : Int) < 0) := by omega
  simp only [if_neg h1, if_neg h2]
  have h3 : min (a : Int) (l.length : Int) = (a : Int) := by omega
  have h4 : min (b : Int) (l.length : Int) = (b : Int) := by omega
  rw [h3, h4]
  have h5 : ((a : Int)).toNat = a := by omega
  have h6 : ((b : Int)).toNat = b := by omega
  rw [h5, h6]

theorem mem_drop_take_iff {α : Type} (l : List α) (a b : Nat) (x : α) (d : α) :
    x ∈ (l.take b).drop a ↔
      ∃ r, a ≤ r ∧ r < b ∧ r < l.length ∧ l.getD r d = x := by
  constructor
  · intro hx
    rw [List.mem_iff_getElem] at hx
    obtain ⟨i, hi, hg⟩ := hx
    have hi' := hi
    rw [List.length_drop, List.length_take] at hi'
    refine ⟨a + i, by omega, by omega, by omega, ?_⟩
    rw [getD_eq_getElem_of_lt (by omega : a + i < l.length), ← hg]
    simp
  · rintro ⟨r, har, hrb, hrl, hg⟩
    rw [List.mem_iff_getElem]
    refine ⟨r - a, ?_, ?_⟩
    · rw [List.length_drop, List.length_take]
      omega
    · have he : a + (r - a) = r := by omega
      rw [← hg, getD_eq_getElem_of_lt hrl]
      simp only [List.getElem_drop, List.getElem_take]
      congr 1

/-- No-match means a truly empty match set; used by both branches below. -/
theorem not_mem_of_mc_zero (t p : List Char) (hmc : mcCount t p = 0) (j : Nat) :
    ¬(j < t.length ∧ pref p (t.drop j)) := by
  rintro ⟨hj, hpref⟩
  have := (mcCount_pos_iff t p).mpr ⟨j, hj, hpref⟩
  omega

/-- `find` lists exactly the occurrence offsets. -/
theorem find_mem_iff (t p : List Char) (ht : t ≠ [])
    (hlast : t.getD (t.length - 1) '?' = '$') (hp : '$' ∉ p) (j : Nat) :
    j ∈ (mkFMIndex t).find p ↔ j < t.length ∧ pref p (t.drop j) := by
  rcases get_range_spec t p ht hlast hp with heq | ⟨hge, hmc⟩
  · rw [find_eq, heq]
    by_cases hmc0 : mcCount t p = 0
    · have hcond : ¬((loCount t p : Int)
          < ((loCount t p + mcCount t p : Nat) : Int)) := by
        push_cast
        omega
      rw [if_neg hcond]
      constructor
      · intro h
        exact absurd h (List.not_mem_nil j)
      · exact fun h => absurd h (not_mem_of_mc_zero t p hmc0 j)
    · have hcond : (loCount t p : Int)
          < ((loCount t p + mcCount t p : Nat) : Int) := by
        push_cast
        omega
      rw [if_pos hcond]
      simp only
      rw [suffix_array_eq,
        pySlice_natCast _ _ _ (by rw [sa_length]; exact loCount_le t p)
          (by rw [sa_length]; exact lo_add_mc_le t p),
        mem_drop_take_iff _ _ _ j 0]
      constructor
      · rintro ⟨r, hr1, hr2, hr3, hg⟩
        have hpref : pref p (t.drop ((create_suffix_array_naive t).getD r 0)) :=
          (row_pref_iff t p hr3).mp ⟨hr1, hr2⟩
        rw [hg] at hpref
        refine ⟨?_, hpref⟩
        rw [← hg]
        exact sa_getD_lt_length t hr3
      · rintro ⟨hj, hpref⟩
        have hjsa : j ∈ create_suffix_array_naive t := sa_mem_iff.mpr hj
        rw [List.mem_iff_getElem] at hjsa
        obtain ⟨r, hr, hg⟩ := hjsa
        have hgD : (create_suffix_array_naive t).getD r 0 = j := by
          rw [getD_eq_getElem_of_lt hr, hg]
        have hrow := (row_pref_iff t p hr).mpr (by rw [hgD]; exact hpref)
        exact ⟨r, hrow.1, hrow.2, hr, hgD⟩
  · rw [find_eq, if_neg (by omega)]
    constructor
    · intro h
      exact absurd h (List.not_mem_nil j)
    · exact fun h => absurd h (not_mem_of_mc_zero t p hmc j)

/-- `contains_substring` decides occurrence. -/
theorem contains_substring_iff (t p : List Char) (ht : t ≠ [])
    (hlast : t.getD (t.length - 1) '?' = '$') (hp : '$' ∉ p) :
    (mkFMIndex t).contains_substring p = true
      ↔ ∃ j, j < t.length ∧ pref p (t.drop j) := by
  rcases get_range_spec t p ht hlast hp with heq | ⟨hge, hmc⟩
  · rw [contains_eq, heq, decide_eq_true_eq]
    constructor
    · intro h
      apply (mcCount_pos_iff t p).mp
      simp only at h
      push_cast at h
      omega
    · intro hex
      have := (mcCount_pos_iff t p).mpr hex
      simp only
      push_cast
      omega
  · rw [contains_eq]
    constructor
    · intro h
      rw [decide_eq_true_eq] at h
      omega
    · rintro ⟨j, hj, hpref⟩
      exact absurd ⟨hj, hpref⟩ (not_mem_of_mc_zero t p hmc j)

/-! ### Range-shape lemmas: normalization, monotonicity, unknown symbols -/

theorem goRange_cons_eq (fm : FMIndex) (c : Char) (cs : List Char) (s0 e0 : Int) :
    fm.goRange (c :: cs) s0 e0
      = (if (fm.backtrace_step c s0 e0).1 > (fm.backtrace_step c s0 e0).2
         then fm.backtrace_step c s0 e0
         else fm.goRange cs (fm.backtrace_step c s0 e0).1
           (fm.backtrace_step c s0 e0).2) := rfl

theorem backtrace_step_mem_eq (fm : FMIndex) {c : Char} (hmem : c ∈ fm.bwt)
    (s0 e0 : Int) :
    fm.backtrace_step c s0 e0
      = ((((fm.bwt.take (s0 - 1 + 1).toNat).count c : Int) - 1
            + (n_less_than fm.bwt c : Int) + 1,
          ((fm.bwt.take (e0 + 1).toNat).count c : Int) - 1
            + (n_less_than fm.bwt c : Int))) := by
  unfold FMIndex.backtrace_step rank_at_row
  rw [if_pos hmem]

theorem backtrace_step_not_mem_eq (fm : FMIndex) {c : Char} (hmem : c ∉ fm.bwt)
    (s0 e0 : Int) :
    fm.backtrace_step c s0 e0 = (e0 + 1, e0) := by
  unfold FMIndex.backtrace_step
  rw [if_neg hmem]

theorem count_take_mono (l : List Char) (c : Char) {a b : Nat} (h : a ≤ b) :
    (l.take a).count c ≤ (l.take b).count c :=
  (List.take_sublist_take_left l h).count_le c

/-- The backward-search state always satisfies `start ≤ end + 1`. -/
theorem goRange_le (fm : FMIndex) :
    ∀ (cs : List Char) (s0 e0 : Int), s0 ≤ e0 + 1 →
      (fm.goRange cs s0 e0).1 ≤ (fm.goRange cs s0 e0).2 + 1 := by
  intro cs
  induction cs with
  | nil => exact fun s0 e0 h => h
  | cons c cs' ih =>
    intro s0 e0 h
    rw [goRange_cons_eq]
    by_cases hmem : c ∈ fm.bwt
    · rw [backtrace_step_mem_eq fm hmem]
      have hcnt : (fm.bwt.take (s0 - 1 + 1).toNat).count c
          ≤ (fm.bwt.take (e0 + 1).toNat).count c :=
        count_take_mono fm.bwt c (by omega)
      by_cases hgt : ((fm.bwt.take (s0 - 1 + 1).toNat).count c : Int) - 1
            + (n_less_than fm.bwt c : Int) + 1
          > ((fm.bwt.take (e0 + 1).toNat).count c : Int) - 1
            + (n_less_than fm.bwt c : Int)
      · rw [if_pos hgt]
        simp only
        omega
      · rw [if_neg hgt]
        exact ih _ _ (by omega)
    · rw [backtrace_step_not_mem_eq fm hmem]
      have hgt : e0 + 1 > e0 := by omega
      rw [if_pos hgt]

/-- Appending a further character to an already-empty backward search
leaves the range empty. -/
theorem goRange_append_empty (fm : FMIndex) :
    ∀ (cs : List Char) (s0 e0 : Int) (c : Char), s0 ≤ e0 + 1 →
      (fm.goRange cs s0 e0).1 > (fm.goRange cs s0 e0).2 →
      (fm.goRange (cs ++ [c]) s0 e0).1 > (fm.goRange (cs ++ [c]) s0 e0).2 := by
  intro cs
  induction cs with
  | nil =>
    intro s0 e0 c hle hgt
    have hs : s0 = e0 + 1 := by
      have h1 : (fm.goRange [] s0 e0) = (s0, e0) := rfl
      rw [h1] at hgt
      simp only at hgt
      omega
    rw [List.nil_append, goRange_cons_eq]
    by_cases hmem : c ∈ fm.bwt
    · rw [backtrace_step_mem_eq fm hmem]
      have he : s0 - 1 + 1 = e0 + 1 := by omega
      rw [he]
      have hgt2 : ((fm.bwt.take (e0 + 1).toNat).count c : Int) - 1
            + (n_less_than fm.bwt c : Int) + 1
          > ((fm.bwt.take (e0 + 1).toNat).count c : Int) - 1
            + (n_less_than fm.bwt c : Int) := by omega
      rw [if_pos hgt2]
      exact hgt2
    · rw [backtrace_step_not_mem_eq fm hmem]
      have hgt2 : e0 + 1 > e0 := by omega
      rw [if_pos hgt2]
      exact hgt2
  | cons c' cs' ih =>
    intro s0 e0 c hle hgt
    rw [goRange_cons_eq] at hgt
    rw [List.cons_append, goRange_cons_eq]
    by_cases hcond : (fm.backtrace_step c' s0 e0).1 > (fm.backtrace_step c' s0 e0).2
    · rw [if_pos hcond] at hgt ⊢
      exact hgt
    · rw [if_neg hcond] at hgt ⊢
      have hle' : (fm.backtrace_step c' s0 e0).1 ≤ (fm.backtrace_step c' s0 e0).2 + 1 := by
        omega
      exact ih _ _ c hle' hgt

/-- A character outside the indexed alphabet anywhere in the scanned
pattern forces an empty range. -/
theorem goRange_unknown (fm : FMIndex) :
    ∀ (cs : List Char) (s0 e0 : Int), (∃ c ∈ cs, c ∉ fm.bwt) →
      (fm.goRange cs s0 e0).1 > (fm.goRange cs s0 e0).2 := by
  intro cs
  induction cs with
  | nil =>
    rintro s0 e0 ⟨c, hc, _⟩
    exact absurd hc (List.not_mem_nil c)
  | cons c' cs' ih =>
    rintro s0 e0 ⟨x, hx, hnx⟩
    rw [goRange_cons_eq]
    by_cases hcond : (fm.backtrace_step c' s0 e0).1 > (fm.backtrace_step c' s0 e0).2
    · rw [if_pos hcond]
      exact hcond
    · rw [if_neg hcond]
      rcases List.mem_cons.mp hx with rfl | hx'
      · exfalso
        rw [backtrace_step_not_mem_eq fm hnx] at hcond
        simp only at hcond
        omega
      · exact ih _ _ ⟨x, hx', hnx⟩

/-! ### Overlap-emission bounds -/

theorem goOverlaps_bounds (fm : FMIndex) (plen m : Nat) :
    ∀ (cs : List Char) (s0 e0 : Int) (k : Nat) (x : List Char × Nat),
      x ∈ fm.goOverlaps plen m cs s0 e0 k → (m ≤ x.2 ∧ x.2 < plen) ∧ k < x.2 := by
  intro cs
  induction cs with
  | nil =>
    intro s0 e0 k x hx
    exact absurd hx (List.not_mem_nil x)
  | cons c cs' ih =>
    intro s0 e0 k x hx
    have hunfold : fm.goOverlaps plen m (c :: cs') s0 e0 k
        = (if (fm.backtrace_step c s0 e0).1 > (fm.backtrace_step c s0 e0).2 then []
           else
            (if m ≤ k + 1 ∧ k + 1 < plen then
              (fm.elements_preceeded_by_sep (fm.backtrace_step c s0 e0).1
                  (fm.backtrace_step c s0 e0).2).map
                (fun i => (FMIndex.get_read_at_offset fm.text i, k + 1))
            else [])
              ++ fm.goOverlaps plen m cs' (fm.backtrace_step c s0 e0).1
                (fm.backtrace_step c s0 e0).2 (k + 1)) := rfl
    rw [hunfold] at hx
    by_cases hcond : (fm.backtrace_step c s0 e0).1 > (fm.backtrace_step c s0 e0).2
    · rw [if_pos hcond] at hx
      exact absurd hx (List.not_mem_nil x)
    · rw [if_neg hcond] at hx
      rcases List.mem_append.mp hx with hx1 | hx2
      · by_cases hg : m ≤ k + 1 ∧ k + 1 < plen
        · rw [if_pos hg] at hx1
          obtain ⟨i, _, hix⟩ := List.mem_map.mp hx1
          rw [← hix]
          exact ⟨⟨hg.1, hg.2⟩, by omega⟩
        · rw [if_neg hg] at hx1
          exact absurd hx1 (List.not_mem_nil x)
      · have := ih _ _ (k + 1) x hx2
        exact ⟨this.1, by omega⟩

/-! ### Count-table lemmas -/

/-- The distinct symbols of the index (the keys of `occ_lex_lower`). -/
def alphabet (fm : FMIndex) : List Char := fm.bwt.dedup

/-- The sum `Σ C[c]` over all alphabet symbols, as the spec's count-table
invariant states it. -/
def sumC (fm : FMIndex) : Nat := ((alphabet fm).map (n_less_than fm.bwt)).sum

/-- The lexicographically greatest indexed symbol. -/
def maxSymbol (fm : FMIndex) : Char := fm.bwt.foldr max (Char.ofNat 0)

theorem le_foldr_max (l : List Char) (d : Char) {x : Char} (hx : x ∈ l) :
    x ≤ l.foldr max d := by
  induction l with
  | nil => exact absurd hx (List.not_mem_nil x)
  | cons y ys ih =>
    rcases List.mem_cons.mp hx with rfl | h
    · exact le_max_left _ _
    · exact le_trans (ih h) (le_max_right _ _)

theorem countP_lt_add_count_eq (l : List Char) (M : Char) (h : ∀ x ∈ l, x ≤ M) :
    List.countP (fun x => decide (x < M)) l + l.count M = l.length := by
  induction l with
  | nil => simp
  | cons x xs ih =>
    have hx := h x (List.mem_cons_self x xs)
    have hxs : ∀ y ∈ xs, y ≤ M := fun y hy => h y (List.mem_cons_of_mem x hy)
    have hih := ih hxs
    rw [List.countP_cons, List.count_cons, List.length_cons]
    by_cases hlt : x < M
    · have h2 : (x == M) = false := by
        rw [beq_char_eq_decide]
        exact decide_eq_false (fun he => absurd (he ▸ hlt) (lt_irrefl M))
      rw [if_pos (decide_eq_true hlt), if_neg (by simp [h2])]
      omega
    · have heq : x = M := le_antisymm hx (not_lt.mp hlt)
      have h2 : (x == M) = true := by
        rw [beq_char_eq_decide]
        exact decide_eq_true heq
      rw [if_neg (by simp [hlt]), if_pos h2]
      omega

theorem getLast?_to_getD {t : List Char} (h : t.getLast? = some '$') :
    t ≠ [] ∧ t.getD (t.length - 1) '?' = '$' := by
  have hne : t ≠ [] := by
    intro he
    rw [he] at h
    simp at h
  refine ⟨hne, ?_⟩
  have hlt : t.length - 1 < t.length := by
    have := List.length_pos.mpr hne
    omega
  rw [List.getLast?_eq_getElem?, List.getElem?_eq_getElem hlt] at h
  injection h with h
  rw [getD_eq_getElem_of_lt hlt]
  exact h

theorem pySlice_zero_len {α : Type} (l : List α) :
    pySlice l 0 (l.length : Int) = l := by
  unfold pySlice
  have h1 : ¬((0 : Int) < 0) := by omega
  have h2 : ¬((l.length : Int) < 0) := by omega
  simp only [if_neg h1, if_neg h2]
  have h3 : min (0 : Int) (l.length : Int) = 0 := by omega
  have h4 : min ((l.length : Int)) (l.length : Int) = (l.length : Int) := by omega
  rw [h3, h4]
  have h5 : ((0 : Int)).toNat = 0 := rfl
  have h6 : ((l.length : Int)).toNat = l.length := by omega
  rw [h5, h6, List.take_length, List.drop_zero]

/-! ### Claim theorems -/

/-- Claim C1, counterexample: on the sentinel-terminated text `"AB$"`
(sentinel only as terminator) and the pattern `"$A"`, `find` returns the
offset `2` even though the text slice of length 2 at offset 2 is not
`"$A"`; so `find(p)` is not exactly the set of matching offsets for every
pattern `p` (the BWT wraparound row makes sentinel-containing patterns
report false matches). -/
theorem c1_counterexample :
    (2 : Nat) ∈ (mkFMIndex "AB$".toList).find "$A".toList
    ∧ ¬((("AB$".toList).drop 2).take ("$A".toList.length) = "$A".toList) := by
  constructor
  · decide
  · decide

/-- Claim C1, amended (restricted to patterns without the sentinel): for
every text ending in the sentinel `'$'` and every pattern `p` not
containing `'$'`, `find(p)` returns exactly the offsets `i` with
`text[i : i + len p] == p`, and `contains(p)` holds exactly when `p`
occurs as a substring. -/
theorem c1_find_exact (t p : List Char) (hlast : t.getLast? = some '$')
    (hp : '$' ∉ p) :
    (∀ i : Nat, i ∈ (mkFMIndex t).find p
        ↔ i < t.length ∧ (t.drop i).take p.length = p)
    ∧ ((mkFMIndex t).contains_substring p = true
        ↔ ∃ i : Nat, i < t.length ∧ (t.drop i).take p.length = p) := by
  obtain ⟨hne, hD⟩ := getLast?_to_getD hlast
  exact ⟨fun i => find_mem_iff t p hne hD hp i, contains_substring_iff t p hne hD hp⟩

/-- Claim C1, witness: the amended theorem applied to text `"AB$"`,
pattern `"A"`, offset `0`. -/
theorem c1_witness :
    (0 : Nat) ∈ (mkFMIndex "AB$".toList).find "A".toList
      ↔ 0 < "AB$".toList.length
        ∧ (("AB$".toList).drop 0).take ("A".toList.length) = "A".toList :=
  (c1_find_exact "AB$".toList "A".toList (by decide) (by decide)).1 0

/-- Claim C2, counterexample: on `"ACGTACGA$TACGAGG$"` the call
`get_prefix_overlaps("ACGTACGA", 3)` does not contain the pair
`("TACGAGG", 4)` — the last 4 characters `"ACGA"` of the query differ
from the first 4 characters `"TACG"` of the read; the full result is
`[("TACGAGG", 5)]` (the qualifying overlap length is 5, `"TACGA"`). -/
theorem c2_counterexample :
    ("TACGAGG".toList, 4)
        ∉ (mkFMIndex "ACGTACGA$TACGAGG$".toList).get_prefix_overlaps
          "ACGTACGA".toList 3
    ∧ (mkFMIndex "ACGTACGA$TACGAGG$".toList).get_prefix_overlaps
        "ACGTACGA".toList 3
      = [("TACGAGG".toList, 5)] := by
  constructor
  · decide
  · decide

/-- Claim C2, amended: for the text `"ACGTACGA$TACGAGG$"`,
`get_prefix_overlaps("ACGTACGA", 3)` contains `("TACGAGG", k)` for every
`k` in `[3, 8)` such that the last `k` characters of `"ACGTACGA"` equal
the first `k` characters of `"TACGAGG"`; in particular the pair with
overlap length 5 appears (length 4 does not qualify, since `"ACGA"` is
not a prefix of `"TACGAGG"`). -/
theorem c2_overlap_scenario :
    (∀ k ∈ List.range 8, 3 ≤ k →
      "ACGTACGA".toList.drop ("ACGTACGA".toList.length - k)
          = "TACGAGG".toList.take k →
      ("TACGAGG".toList, k)
        ∈ (mkFMIndex "ACGTACGA$TACGAGG$".toList).get_prefix_overlaps
          "ACGTACGA".toList 3)
    ∧ ("TACGAGG".toList, 5)
        ∈ (mkFMIndex "ACGTACGA$TACGAGG$".toList).get_prefix_overlaps
          "ACGTACGA".toList 3 := by
  constructor
  · decide
  · decide

/-- Claim C2, witness: the amended theorem's quantified part applied at
overlap length `5`, whose suffix/prefix side condition holds. -/
theorem c2_witness :
    ("TACGAGG".toList, 5)
      ∈ (mkFMIndex "ACGTACGA$TACGAGG$".toList).get_prefix_overlaps
        "ACGTACGA".toList 3 :=
  c2_overlap_scenario.1 5 (by decide) (by decide) (by decide)

/-- Claim C3, counterexample: index construction does not raise
`InvalidInputError` on the empty text nor on a text with a mid-sequence
sentinel and no terminating sentinel; it returns an index. -/
theorem c3_counterexample :
    build_index [] = Except.ok (mkFMIndex [])
    ∧ build_index "A$B".toList = Except.ok (mkFMIndex "A$B".toList) :=
  ⟨rfl, rfl⟩

/-- Claim C3, amended: construction performs no input validation at all —
for every text (including the empty text and texts violating the
sentinel invariant) it succeeds and returns an index over that text,
with a full-length suffix array; `InvalidInputError` is never raised. -/
theorem c3_no_validation (text : List Char) :
    build_index text = Except.ok (mkFMIndex text)
    ∧ (mkFMIndex text).text = text
    ∧ (mkFMIndex text).suffix_array.length = text.length :=
  ⟨rfl, rfl, by rw [suffix_array_eq]; exact sa_length text⟩

/-- Claim C4: a pattern containing a symbol absent from the indexed
alphabet produces an empty range: `get_range` reports no match, `find`
is empty and `contains_substring` is false (the unknown symbol is
handled locally by `backtrace_step`; no exception reaches the caller). -/
theorem c4_unknown_symbol (t p : List Char)
    (h : ∃ c ∈ p, c ∉ (mkFMIndex t).bwt) :
    ¬(((mkFMIndex t).get_range p).1 < ((mkFMIndex t).get_range p).2)
    ∧ (mkFMIndex t).find p = []
    ∧ (mkFMIndex t).contains_substring p = false := by
  obtain ⟨c, hc, hnc⟩ := h
  have hrev : ∃ c ∈ p.reverse, c ∉ (mkFMIndex t).bwt :=
    ⟨c, List.mem_reverse.mpr hc, hnc⟩
  have hgt := goRange_unknown (mkFMIndex t) p.reverse 0
    (((mkFMIndex t).text.length : Int) - 1) hrev
  have hnotlt : ¬(((mkFMIndex t).get_range p).1
      < ((mkFMIndex t).get_range p).2) := by
    rw [get_range_eq]
    simp only
    omega
  exact ⟨hnotlt, by rw [find_eq, if_neg hnotlt],
    by rw [contains_eq, decide_eq_false hnotlt]⟩

/-- Claim C4, witness: pattern `"Z"` on text `"AB$"`. -/
theorem c4_witness :
    ¬(((mkFMIndex "AB$".toList).get_range "Z".toList).1
        < ((mkFMIndex "AB$".toList).get_range "Z".toList).2)
    ∧ (mkFMIndex "AB$".toList).find "Z".toList = []
    ∧ (mkFMIndex "AB$".toList).contains_substring "Z".toList = false :=
  c4_unknown_symbol "AB$".toList "Z".toList (by decide)

/-- Claim C5: if `get_range(p)` denotes the empty range then
`get_range(c :: p)` does too — prepending a symbol to a non-matching
pattern never produces a match. -/
theorem c5_empty_monotone (t p : List Char) (c : Char)
    (h : ¬(((mkFMIndex t).get_range p).1 < ((mkFMIndex t).get_range p).2)) :
    ¬(((mkFMIndex t).get_range (c :: p)).1
        < ((mkFMIndex t).get_range (c :: p)).2) := by
  rw [get_range_eq] at h
  rw [get_range_eq]
  simp only at h ⊢
  have hinit : (0 : Int) ≤ ((mkFMIndex t).text.length : Int) - 1 + 1 := by omega
  have happ := goRange_append_empty (mkFMIndex t) p.reverse 0
    (((mkFMIndex t).text.length : Int) - 1) c hinit (by omega)
  rw [List.reverse_cons]
  omega

/-- Claim C5, witness: the non-matching pattern `"X"` on `"AB$"`, with
`'A'` prepended. -/
theorem c5_witness :
    ¬(((mkFMIndex "AB$".toList).get_range ('A' :: "X".toList)).1
        < ((mkFMIndex "AB$".toList).get_range ('A' :: "X".toList)).2) :=
  c5_empty_monotone "AB$".toList "X".toList 'A' (by decide)

/-- Claim C6, counterexample: on `"AB$"` (three distinct symbols) the sum
`Σ C[c]` over the alphabet is `0 + 1 + 2 = 3`, and adding the frequency
`1` of the greatest symbol `'B'` gives `4 ≠ 3 = n`; the spec's summation
form of the count-table invariant is false. -/
theorem c6_counterexample :
    ¬(sumC (mkFMIndex "AB$".toList)
        + ("AB$".toList).count (maxSymbol (mkFMIndex "AB$".toList))
      = ("AB$".toList).length) := by
  decide

/-- Claim C6, amended: the count table satisfies
`C[greatest symbol] + occurrences(greatest symbol) = n` (the summation
over all alphabet symbols only coincides with this for alphabets of at
most two symbols), and `C` is non-decreasing in lexicographic symbol
order. -/
theorem c6_count_table (t : List Char) :
    n_less_than (mkFMIndex t).bwt (maxSymbol (mkFMIndex t))
        + t.count (maxSymbol (mkFMIndex t)) = t.length
    ∧ (∀ c c' : Char, c ≤ c' →
        n_less_than (mkFMIndex t).bwt c ≤ n_less_than (mkFMIndex t).bwt c') := by
  constructor
  · have hle : ∀ x ∈ (mkFMIndex t).bwt, x ≤ maxSymbol (mkFMIndex t) :=
      fun x hx => le_foldr_max _ _ hx
    have h1 := countP_lt_add_count_eq (mkFMIndex t).bwt (maxSymbol (mkFMIndex t)) hle
    have h2 : n_less_than (mkFMIndex t).bwt (maxSymbol (mkFMIndex t))
        = List.countP (fun x => decide (x < maxSymbol (mkFMIndex t)))
            (mkFMIndex t).bwt := by
      unfold n_less_than
      rw [← List.countP_eq_length_filter]
    have h3 : (mkFMIndex t).bwt.count (maxSymbol (mkFMIndex t))
        = t.count (maxSymbol (mkFMIndex t)) := (bwt_perm t).count_eq _
    rw [h2, ← h3, ← bwt_length t]
    exact h1
  · intro c c' hcc
    unfold n_less_than
    rw [← List.countP_eq_length_filter, ← List.countP_eq_length_filter]
    apply List.countP_mono_left
    intro x _ hx
    rw [decide_eq_true_eq] at hx
    exact decide_eq_true (lt_of_lt_of_le hx hcc)

/-- Claim C6, witness: the amended theorem evaluated on `"AB$"`, with the
monotonicity part instantiated at `'A' ≤ 'B'`. -/
theorem c6_witness :
    n_less_than (mkFMIndex "AB$".toList).bwt (maxSymbol (mkFMIndex "AB$".toList))
        + ("AB$".toList).count (maxSymbol (mkFMIndex "AB$".toList))
      = ("AB$".toList).length
    ∧ n_less_than (mkFMIndex "AB$".toList).bwt 'A'
        ≤ n_less_than (mkFMIndex "AB$".toList).bwt 'B' :=
  ⟨(c6_count_table "AB$".toList).1,
    (c6_count_table "AB$".toList).2 'A' 'B' (by decide)⟩

/-- Claim C7: every pair `(read, overlap_len)` emitted by
`get_prefix_overlaps(p, m)` satisfies `m ≤ overlap_len < len p`; in
particular a full-length match of `p` is never reported. -/
theorem c7_overlap_bounds (t p : List Char) (m : Nat) (x : List Char × Nat)
    (hx : x ∈ (mkFMIndex t).get_prefix_overlaps p m) :
    m ≤ x.2 ∧ x.2 < p.length :=
  (goOverlaps_bounds (mkFMIndex t) p.length m p.reverse 0
    (((mkFMIndex t).text.length : Int) - 1) 0 x hx).1

/-- Claim C7, witness: the emitted pair `("TACGAGG", 5)` of the overlap
scenario satisfies `3 ≤ 5 < 8`. -/
theorem c7_witness :
    3 ≤ (("TACGAGG".toList, 5) : List Char × Nat).2
    ∧ (("TACGAGG".toList, 5) : List Char × Nat).2 < "ACGTACGA".toList.length :=
  c7_overlap_bounds "ACGTACGA$TACGAGG$".toList "ACGTACGA".toList 3
    ("TACGAGG".toList, 5) (by decide)

/-- Claim C8: on a non-empty text of length `n` the empty pattern matches
everywhere: `get_range` returns `[0, n)`, `find` returns the whole
suffix array (a permutation of all `n` offsets), and
`contains_substring` is true. -/
theorem c8_empty_pattern (t : List Char) (ht : t ≠ []) :
    (mkFMIndex t).get_range [] = (0, (t.length : Int))
    ∧ (mkFMIndex t).find [] = (mkFMIndex t).suffix_array
    ∧ List.Perm (mkFMIndex t).suffix_array (List.range t.length)
    ∧ (mkFMIndex t).contains_substring [] = true := by
  have hpos : 0 < t.length := List.length_pos.mpr ht
  have hgr : (mkFMIndex t).get_range [] = (0, (t.length : Int)) := by
    rw [get_range_eq]
    have hgo : (mkFMIndex t).goRange ([] : List Char).reverse 0
        (((mkFMIndex t).text.length : Int) - 1)
        = (0, ((mkFMIndex t).text.length : Int) - 1) := rfl
    rw [hgo, text_eq, Prod.mk.injEq]
    exact ⟨rfl, by omega⟩
  refine ⟨hgr, ?_, ?_, ?_⟩
  · rw [find_eq, hgr, if_pos (show (0 : Int) < (t.length : Int) by omega)]
    have hlen : ((t.length : Nat) : Int) = ((mkFMIndex t).suffix_array.length : Int) := by
      rw [suffix_array_eq, sa_length]
    show pySlice (mkFMIndex t).suffix_array 0 (t.length : Int)
      = (mkFMIndex t).suffix_array
    rw [hlen]
    exact pySlice_zero_len _
  · rw [suffix_array_eq]
    exact sa_perm t
  · rw [contains_eq, hgr]
    apply decide_eq_true
    show (0 : Int) < (t.length : Int)
    omega

/-- Claim C8, witness: the theorem evaluated on `"AB$"`. -/
theorem c8_witness :
    (mkFMIndex "AB$".toList).get_range [] = (0, 3)
    ∧ (mkFMIndex "AB$".toList).contains_substring [] = true := by
  have h := c8_empty_pattern "AB$".toList (by decide)
  refine ⟨?_, h.2.2.2⟩
  rw [h.1]
  decide

/-- Claim C9: because the symbol preceding offset `i` is read as
`text[i - 1]` and index `-1` wraps to the final symbol of the
sentinel-terminated text, offset `0` is always classified as preceded by
a sentinel: `elements_preceeded_by_sep` keeps offset `0` whenever it lies
in the queried row range; consequently `find_prefixes` reports offset `0`
for `"AB"` in `"AB$"`, and `get_prefix_overlaps` reports the read
starting at offset `0` (`"AB"`, overlap 2) for the query `"XAB"` even
though no sentinel physically precedes it. -/
theorem c9_offset_zero_sentinel (t : List Char) (hlast : t.getLast? = some '$') :
    (pyGet t (-1) = '$'
      ∧ ∀ s e : Int, (0 : Nat) ∈ pySlice (mkFMIndex t).suffix_array s (e + 1) →
        (0 : Nat) ∈ (mkFMIndex t).elements_preceeded_by_sep s e)
    ∧ (mkFMIndex "AB$".toList).find_prefixes "AB".toList = [0]
    ∧ (mkFMIndex "AB$".toList).get_prefix_overlaps "XAB".toList 1
        = [("AB".toList, 2)] := by
  obtain ⟨hne, hD⟩ := getLast?_to_getD hlast
  have hneg : pyGet t (-1) = '$' := by
    rw [pyGet_neg_one]
    exact hD
  refine ⟨⟨hneg, ?_⟩, by decide, by decide⟩
  intro s e h0
  unfold FMIndex.elements_preceeded_by_sep
  rw [List.mem_filter]
  refine ⟨h0, ?_⟩
  have he : (((0 : Nat) : Int) - 1) = -1 := by omega
  rw [text_eq, he, hneg]
  simp

/-- Claim C9, witness: offset `0` (held at suffix-array row 1 of `"AB$"`)
is kept by `elements_preceeded_by_sep` on the row range `[1, 1]`. -/
theorem c9_witness :
    (0 : Nat) ∈ (mkFMIndex "AB$".toList).elements_preceeded_by_sep 1 1 :=
  (c9_offset_zero_sentinel "AB$".toList (by decide)).1.2 1 1 (by decide)

/-- Claim C10: for every built index and every pattern, `get_range`
returns `(start, end)` with `start ≤ end`; a no-match outcome is the
empty interval `start = end`, never `start > end`. -/
theorem c10_range_normalized (t p : List Char) :
    ((mkFMIndex t).get_range p).1 ≤ ((mkFMIndex t).get_range p).2
    ∧ (¬(((mkFMIndex t).get_range p).1 < ((mkFMIndex t).get_range p).2)
        → ((mkFMIndex t).get_range p).1 = ((mkFMIndex t).get_range p).2) := by
  have hle := goRange_le (mkFMIndex t) p.reverse 0
    (((mkFMIndex t).text.length : Int) - 1) (by omega)
  rw [get_range_eq]
  simp only
  exact ⟨by omega, fun h => by omega⟩

/-- Claim C10, witness: the no-match pattern `"Z"` on `"AB$"` yields
`start = end`. -/
theorem c10_witness :
    ((mkFMIndex "AB$".toList).get_range "Z".toList).1
      = ((mkFMIndex "AB$".toList).get_range "Z".toList).2 :=
  (c10_range_normalized "AB$".toList "Z".toList).2 (by decide)

